import Mathlib

/-
Shallow embedding of the reconciliation logic of the seller-apis repository
(src/seller.py for the Ozon marketplace, src/market.py for Yandex Market),
together with proofs checking the natural-language specification against it.

Modelling conventions:
  * Python strings are Lean `String`s; the spreadsheet cells "Код",
    "Количество" and "Цена" are modelled as strings (the code applies
    `str(...)` to the first two before every use, and `str` is the identity
    on strings).
  * Python exceptions are modelled with `Option`/`Except`: `none` / `.error`
    means the Python call raises.
  * `list.remove(x)` removes the first occurrence of `x` (it is only called
    after an `in` check, so the `ValueError` branch of `remove` is dead);
    it is modelled by `List.erase`.
  * Functions that mutate an argument list in place additionally return the
    final state of that list, so that the caller-visible mutation is explicit.
-/

set_option maxRecDepth 8000

namespace SellerApis

/-- One spreadsheet inventory row as consumed by the reconciliation code:
column "Код" (vendor code), column "Количество" (quantity) and column
"Цена" (price). -/
structure Watch where
  code : String
  quantity : String
  price : String
deriving Repr, DecidableEq

/-- Ozon stock entry: the dict `\x7b"offer_id": ..., "stock": ...\x7d` built by
create_stocks in src/seller.py. -/
structure StockEntry where
  offer_id : String
  stock : Int
deriving Repr, DecidableEq

/-- Whitespace characters stripped by Python `int` applied to a string. -/
def pyWS (c : Char) : Bool :=
  c = ' ' ∨ c = '\t' ∨ c = '\n' ∨ c = '\x0b' ∨ c = '\x0c' ∨ c = '\r'

/-- Accumulating digit scanner for the model of Python `int`: after at least
one digit has been read, a single underscore may separate two digits. -/
def pyDigitsAux : Nat → List Char → Option Nat
  | acc, [] => some acc
  | _, ['_'] => none
  | acc, '_' :: c :: cs =>
      if c.isDigit then pyDigitsAux (acc * 10 + (c.toNat - 48)) cs else none
  | acc, c :: cs =>
      if c.isDigit then pyDigitsAux (acc * 10 + (c.toNat - 48)) cs else none

/-- Value of a non-empty digit sequence as accepted by Python `int`
(single underscores allowed between digits, not leading). -/
def pyDigitsVal : List Char → Option Nat
  | [] => none
  | '_' :: _ => none
  | cs => pyDigitsAux 0 cs

/-- Model of Python `int(s)` for a string `s`: optional surrounding
whitespace, an optional sign, then a non-empty digit sequence (ASCII digits,
single underscores allowed between digits). Any other input raises
`ValueError`, modelled by `none`. -/
def pyStrToInt (s : String) : Option Int :=
  let cs := ((s.toList.dropWhile pyWS).reverse.dropWhile pyWS).reverse
  match cs with
  | '+' :: rest => (pyDigitsVal rest).map Int.ofNat
  | '-' :: rest => (pyDigitsVal rest).map (fun n => -(Int.ofNat n))
  | rest => (pyDigitsVal rest).map Int.ofNat

/-- The quantity-to-count mapping inlined in both create_stocks variants
(src/seller.py lines 175-181 and src/market.py lines 134-140):
`">10"` gives 100, `"1"` gives 0, anything else is passed to Python `int`
(raising `ValueError`, i.e. `none`, on non-numeric input). -/
def quantityStock (q : String) : Option Int :=
  if q = ">10" then some 100
  else if q = "1" then some 0
  else pyStrToInt q

/-- The first loop of create_stocks in src/seller.py: for each row whose code
is in the current offer id list, emit a stock entry with the mapped count and
remove that code's first occurrence from the list. Returns the entries in
emission order together with the list as the loop leaves it (this is the very
list object the caller passed in). `none` models the `ValueError` raised by
`int` on a non-numeric quantity. -/
def stocksLoop : List Watch → List String → Option (List StockEntry × List String)
  | [], ids => some ([], ids)
  | w :: ws, ids =>
    if w.code ∈ ids then
      match quantityStock w.quantity with
      | none => none
      | some v =>
        match stocksLoop ws (ids.erase w.code) with
        | none => none
        | some (entries, rem) => some (⟨w.code, v⟩ :: entries, rem)
    else stocksLoop ws ids

/-- create_stocks from src/seller.py (lines 157-187). After the matching
loop, every offer id still in the (now reduced) list gets a zero-stock entry.
The second component is the state of the caller's `offer_ids` list after the
call: the function removes matched codes from the caller's list itself. -/
def create_stocks (ws : List Watch) (ids : List String) :
    Option (List StockEntry × List String) :=
  match stocksLoop ws ids with
  | none => none
  | some (entries, rem) => some (entries ++ rem.map (fun i => ⟨i, 0⟩), rem)

/-- Python `price.split(".")`: split a character list on `.`. -/
def pySplitDot : List Char → List (List Char)
  | [] => [[]]
  | c :: cs =>
    if c = '.' then [] :: pySplitDot cs
    else
      match pySplitDot cs with
      | [] => [[c]]
      | p :: ps => (c :: p) :: ps

/-- price_conversion from src/seller.py (lines 218-220):
`re.sub("[^0-9]", "", price.split(".")[0])` — keep the part before the first
dot and delete every character that is not an ASCII decimal digit. -/
def price_conversion (price : String) : String :=
  String.mk (((pySplitDot price.toList).headD []).filter Char.isDigit)

/-- Ozon price entry: the dict built by create_prices in src/seller.py,
with its three constant fields. -/
structure PriceEntry where
  auto_action_enabled : String
  currency_code : String
  offer_id : String
  old_price : String
  price : String
deriving Repr, DecidableEq

/-- create_prices from src/seller.py (lines 190-215): one entry per row whose
code is in the offer id list; the list is only read, never mutated. -/
def create_prices : List Watch → List String → List PriceEntry
  | [], _ => []
  | w :: ws, ids =>
    if w.code ∈ ids then
      ⟨"UNKNOWN", "RUB", w.code, "0", price_conversion w.price⟩ :: create_prices ws ids
    else create_prices ws ids

/-- divide from src/seller.py (lines 223-226): successive slices
`lst[i : i + n]` for `i = 0, n, 2n, ...`. For `n = 0` the Python `range`
raises `ValueError`; the model is only used (and only makes claims) for
`n ≥ 1`. -/
def divide (lst : List α) (n : Nat) : List (List α) :=
  if _h : n = 0 then []
  else
    match lst with
    | [] => []
    | a :: l => (a :: l).take n :: divide ((a :: l).drop n) n
termination_by lst.length
decreasing_by
  simp only [List.length_drop, List.length_cons]
  omega

/-- One element of the `items` array in a Yandex Market stock entry
(src/market.py lines 145-151): count, the constant type "FIT" and the
timestamp string computed once per create_stocks call. -/
structure MarketStockItem where
  count : Int
  itemType : String
  updatedAt : String
deriving Repr, DecidableEq

/-- Yandex Market stock entry (src/market.py lines 141-153): sku,
warehouseId and a one-element items array. -/
structure MarketStockEntry where
  sku : String
  warehouseId : String
  items : List MarketStockItem
deriving Repr, DecidableEq

/-- The matching loop of create_stocks in src/market.py (lines 132-154):
identical control flow to the seller variant, different entry shape.
`wh` is the warehouse_id argument; `date` is the timestamp string the
function computes once from the clock before the loop, passed in here as a
parameter since it is an external input. -/
def marketStocksLoop (wh date : String) :
    List Watch → List String → Option (List MarketStockEntry × List String)
  | [], ids => some ([], ids)
  | w :: ws, ids =>
    if w.code ∈ ids then
      match quantityStock w.quantity with
      | none => none
      | some v =>
        match marketStocksLoop wh date ws (ids.erase w.code) with
        | none => none
        | some (entries, rem) =>
          some (⟨w.code, wh, [⟨v, "FIT", date⟩]⟩ :: entries, rem)
    else marketStocksLoop wh date ws ids

/-- create_stocks from src/market.py (lines 118-170): matching loop, then a
zero-count entry for every offer id left in the list. As in the seller
variant, the second component is the caller's offer id list after the call
(the function removes matched codes from the caller's list). -/
def market_create_stocks (ws : List Watch) (ids : List String)
    (wh date : String) : Option (List MarketStockEntry × List String) :=
  match marketStocksLoop wh date ws ids with
  | none => none
  | some (entries, rem) =>
    some (entries ++ rem.map (fun i => ⟨i, wh, [⟨0, "FIT", date⟩]⟩), rem)

/-- The price sub-object of a Yandex Market price entry
(src/market.py lines 189-194). -/
structure MarketPrice where
  value : Int
  currencyId : String
deriving Repr, DecidableEq

/-- Yandex Market price entry (src/market.py lines 186-197). -/
structure MarketPriceEntry where
  id : String
  price : MarketPrice
deriving Repr, DecidableEq

/-- create_prices from src/market.py (lines 173-199): one entry per row whose
code is in the offer id list; the price value is
`int(price_conversion(...))`, whose `ValueError` on an empty digit string is
modelled by `none`. The offer id list is only read, never mutated. -/
def market_create_prices : List Watch → List String → Option (List MarketPriceEntry)
  | [], _ => some []
  | w :: ws, ids =>
    if w.code ∈ ids then
      match pyStrToInt (price_conversion w.price) with
      | none => none
      | some v =>
        (market_create_prices ws ids).map (fun rest => ⟨w.code, v, "RUR"⟩ :: rest)
    else market_create_prices ws ids

/-- The reconciliation portion of main in src/seller.py (lines 284-288):
create_stocks runs first and mutates `offer_ids`; create_prices then runs on
the very same, now reduced, list. Returns the stock list, the price list and
the final state of the offer id list. -/
def reconcile (ws : List Watch) (ids : List String) :
    Option ((List StockEntry × List PriceEntry) × List String) :=
  match create_stocks ws ids with
  | none => none
  | some (stocks, ids1) => some ((stocks, create_prices ws ids1), ids1)

/-- One product item of an Ozon product-list page; the code only reads its
`offer_id` field (src/seller.py line 72). -/
structure OzonItem where
  offer_id : String
deriving Repr, DecidableEq

/-- One Ozon `/v2/product/list` response, as read by get_offer_ids in
src/seller.py: `items`, `total` and the `last_id` cursor. -/
structure OzonPage where
  items : List OzonItem
  total : Nat
  last_id : String
deriving Repr, DecidableEq

/-- The pagination loop of get_offer_ids in src/seller.py (lines 61-69),
abstracted over the sequence of page responses: the k-th call to
get_product_list (whatever cursor it carries) returns `pages k`. The loop
accumulates `items` and stops when `total` of the page just received equals
the accumulated item count. `fuel` bounds the number of calls; `none` means
the loop has not terminated within `fuel` calls. -/
def ozonLoop (pages : Nat → OzonPage) : Nat → Nat → List OzonItem → Option (List OzonItem)
  | 0, _, _ => none
  | fuel + 1, k, acc =>
    if (pages k).total = (acc ++ (pages k).items).length then
      some (acc ++ (pages k).items)
    else ozonLoop pages fuel (k + 1) (acc ++ (pages k).items)

/-- get_offer_ids from src/seller.py (lines 47-73): run the pagination loop
from an empty accumulator, then extract `offer_id` from every item, in
order. -/
def ozon_get_offer_ids (pages : Nat → OzonPage) (fuel : Nat) : Option (List String) :=
  (ozonLoop pages fuel 0 []).map (fun items => items.map OzonItem.offer_id)

/-- The `offer` sub-object of a Yandex offer-mapping entry; the code only
reads its `shopSku` (src/market.py line 114). -/
structure YandexOffer where
  shopSku : String
deriving Repr, DecidableEq

/-- One Yandex offer-mapping entry. -/
structure YandexEntry where
  offer : YandexOffer
deriving Repr, DecidableEq

/-- One Yandex offer-mapping-entries response, as read by get_offer_ids in
src/market.py: the entry list and `paging.nextPageToken`. A missing token
(Python `None`) and an empty token are both falsy in `if not page`; both are
modelled by `""`. -/
structure YandexPage where
  offerMappingEntries : List YandexEntry
  nextPageToken : String
deriving Repr, DecidableEq

/-- The pagination loop of get_offer_ids in src/market.py (lines 104-111),
abstracted over the sequence of page responses: the k-th call to
get_product_list returns `pages k`. The loop accumulates entries and stops
when the page just received carries no next-page token. `fuel` bounds the
number of calls; `none` means the loop has not terminated within `fuel`
calls. -/
def yandexLoop (pages : Nat → YandexPage) : Nat → Nat → List YandexEntry → Option (List YandexEntry)
  | 0, _, _ => none
  | fuel + 1, k, acc =>
    if (pages k).nextPageToken = "" then some (acc ++ (pages k).offerMappingEntries)
    else yandexLoop pages fuel (k + 1) (acc ++ (pages k).offerMappingEntries)

/-- get_offer_ids from src/market.py (lines 94-115): run the pagination loop
from an empty accumulator, then extract `offer.shopSku` from every entry, in
order. -/
def yandex_get_offer_ids (pages : Nat → YandexPage) (fuel : Nat) : Option (List String) :=
  (yandexLoop pages fuel 0 []).map (fun es => es.map (fun e => e.offer.shopSku))

/-- Concatenated `items` of the Ozon pages `k, k+1, ..., k+m-1`. -/
def oSeg (pages : Nat → OzonPage) : Nat → Nat → List OzonItem
  | _, 0 => []
  | k, m + 1 => (pages k).items ++ oSeg pages (k + 1) m

/-- Concatenated entries of the Yandex pages `k, k+1, ..., k+m-1`. -/
def ySeg (pages : Nat → YandexPage) : Nat → Nat → List YandexEntry
  | _, 0 => []
  | k, m + 1 => (pages k).offerMappingEntries ++ ySeg pages (k + 1) m

/-- The exception taxonomy distinguished by the top-level handlers of both
entry points: requests.exceptions.ReadTimeout, requests.exceptions.
ConnectionError (printed with str(error)), and the catch-all
`except Exception` (printed with str(error)). -/
inductive Exc
  | readTimeout
  | connectionError (msg : String)
  | other (msg : String)
deriving Repr, DecidableEq

/-- How each handler branch prints its exception
(src/seller.py lines 291-296, src/market.py lines 282-287). -/
def excMessage : Exc → String
  | .readTimeout => "Превышено время ожидания..."
  | .connectionError m => m ++ " Ошибка соединения"
  | .other m => m ++ " ERROR_2"

/-- Observable outcome of one `main()` run: normal termination with the
lines printed by the except branches (process exit status 0), or an
exception escaping `main` uncaught (non-zero exit status). -/
inductive Outcome
  | exitZero (printed : List String)
  | uncaught (e : Exc)
deriving Repr, DecidableEq

/-- Run one network upload per batch, stopping at the first raised
exception: models the `for some_stock in list(divide(...)):` upload loops,
where a failing request aborts the remaining batches. -/
def runBatches (f : β → Except Exc Unit) : List β → Except Exc Unit
  | [] => .ok ()
  | b :: bs =>
    match f b with
    | .error e => .error e
    | .ok _ => runBatches f bs

/-- Network oracle for one run of main in src/seller.py: the outcome of the
catalog fetch, of the inventory download, and of each stock/price batch
upload. -/
structure SellerEnv where
  offerIdsR : Except Exc (List String)
  downloadR : Except Exc (List Watch)
  updateStocksR : List StockEntry → Except Exc Unit
  updatePriceR : List PriceEntry → Except Exc Unit

/-- The body of the `try` block of main in src/seller.py (lines 281-290):
catalog fetch, inventory download, create_stocks (whose `ValueError` on a
bad quantity is an exception like any other), stock batches of 100,
create_prices on the same (mutated) offer id list, price batches of 900. -/
def sellerTryBody (env : SellerEnv) : Except Exc Unit :=
  match env.offerIdsR with
  | .error e => .error e
  | .ok ids =>
    match env.downloadR with
    | .error e => .error e
    | .ok ws =>
      match create_stocks ws ids with
      | none => .error (.other "ValueError")
      | some (stocks, ids1) =>
        match runBatches env.updateStocksR (divide stocks 100) with
        | .error e => .error e
        | .ok _ => runBatches env.updatePriceR (divide (create_prices ws ids1) 900)

/-- main from src/seller.py (lines 276-297): everything runs inside the
single try/except; each except branch prints and falls through, so the
process exits with status 0. -/
def seller_main (env : SellerEnv) : Outcome :=
  match sellerTryBody env with
  | .ok _ => .exitZero []
  | .error e => .exitZero [excMessage e]

/-- Network oracle for one run of main in src/market.py: the inventory
download, then per campaign (FBS, DBS) the catalog fetch and the stock batch
uploads. The warehouse ids come from the environment; the timestamp strings
are the clock reads inside the two create_stocks calls. -/
structure MarketEnv where
  downloadR : Except Exc (List Watch)
  offerIdsFbsR : Except Exc (List String)
  offerIdsDbsR : Except Exc (List String)
  updateStocksFbsR : List MarketStockEntry → Except Exc Unit
  updateStocksDbsR : List MarketStockEntry → Except Exc Unit
  warehouseFbs : String
  warehouseDbs : String
  dateFbs : String
  dateDbs : String

/-- The body of the `try` block of main in src/market.py (lines 265-281),
given the already-downloaded inventory: for FBS then DBS, catalog fetch,
create_stocks, stock batches of 2000. The `upload_prices(...)` calls on
lines 272 and 281 invoke an async function without awaiting it, so only a
coroutine object is created and no price-update code runs: they are
no-ops here. -/
def marketTryBody (env : MarketEnv) (ws : List Watch) : Except Exc Unit :=
  match env.offerIdsFbsR with
  | .error e => .error e
  | .ok idsF =>
    match market_create_stocks ws idsF env.warehouseFbs env.dateFbs with
    | none => .error (.other "ValueError")
    | some (stocksF, _) =>
      match runBatches env.updateStocksFbsR (divide stocksF 2000) with
      | .error e => .error e
      | .ok _ =>
        match env.offerIdsDbsR with
        | .error e => .error e
        | .ok idsD =>
          match market_create_stocks ws idsD env.warehouseDbs env.dateDbs with
          | none => .error (.other "ValueError")
          | some (stocksD, _) => runBatches env.updateStocksDbsR (divide stocksD 2000)

/-- main from src/market.py (lines 255-287): `watch_remnants =
download_stock()` on line 263 runs BEFORE the try block, so a download
failure escapes main uncaught; everything else runs inside the try/except,
whose branches print and fall through. -/
def market_main (env : MarketEnv) : Outcome :=
  match env.downloadR with
  | .error e => .uncaught e
  | .ok ws =>
    match marketTryBody env ws with
    | .ok _ => .exitZero []
    | .error e => .exitZero [excMessage e]

/-- The price normalization as the specification words it: take the prefix of
the input before the first "." (the whole input if no "." occurs) and delete
every character that is not a decimal digit. Stated independently of the
source's `split(".")[0]` so the two can be compared. -/
def normalizePriceSpec (s : String) : String :=
  String.mk ((s.toList.takeWhile (fun c => c ≠ '.')).filter Char.isDigit)

/-- The count the specification assigns to a catalog offer id: the mapped
quantity of the first inventory row whose code equals it, or 0 when no row
matches. (`getD 0` is only reached under a hypothesis that the create_stocks
run succeeded, in which case every matched quantity parses.) -/
def stockFor (ws : List Watch) (x : String) : Int :=
  match ws.find? (fun w => w.code == x) with
  | some w => (quantityStock w.quantity).getD 0
  | none => 0

theorem pySplitDot_ne_nil (cs : List Char) : pySplitDot cs ≠ [] := by
  induction cs with
  | nil => simp [pySplitDot]
  | cons c cs ih =>
    by_cases hc : c = '.'
    · simp [pySplitDot, hc]
    · simp only [pySplitDot, if_neg hc]
      cases h : pySplitDot cs with
      | nil => simp
      | cons p ps => simp

theorem headD_pySplitDot (cs : List Char) :
    (pySplitDot cs).headD [] = cs.takeWhile (fun c => c ≠ '.') := by
  induction cs with
  | nil => simp [pySplitDot]
  | cons c cs ih =>
    by_cases hc : c = '.'
    · simp [pySplitDot, hc, List.takeWhile_cons]
    · simp only [pySplitDot, if_neg hc]
      cases h : pySplitDot cs with
      | nil => exact absurd h (pySplitDot_ne_nil cs)
      | cons p ps =>
        rw [h] at ih
        simp only [List.headD_cons] at ih
        simp [List.takeWhile_cons, hc, ih]

/-- Claim C6: price_conversion returns its input's prefix before the first
"." with every non-digit character deleted; in particular "5'990.00 руб."
normalizes to "5990", "199.99" to "199" and "abc" to "". (As a Lean
function of its argument it is pure by construction, matching the claim's
"no side effects".) -/
theorem price_conversion_matches_spec :
    (∀ s : String, price_conversion s = normalizePriceSpec s) ∧
    price_conversion "5\x27990.00 руб." = "5990" ∧
    price_conversion "199.99" = "199" ∧
    price_conversion "abc" = "" := by
  refine ⟨fun s => ?_, by decide, by decide, by decide⟩
  unfold price_conversion normalizePriceSpec
  rw [headD_pySplitDot]

theorem divide_nil (n : Nat) : divide ([] : List α) n = [] := by
  rw [divide]
  split <;> rfl

theorem divide_cons_eq (l : List α) (n : Nat) (hn : n ≠ 0) (hl : l ≠ []) :
    divide l n = l.take n :: divide (l.drop n) n := by
  cases l with
  | nil => exact absurd rfl hl
  | cons a t =>
    rw [divide]
    simp [hn]

theorem divide_join (l : List α) (n : Nat) (hn : n ≠ 0) :
    (divide l n).flatten = l := by
  cases l with
  | nil => simp [divide_nil]
  | cons a t =>
    rw [divide_cons_eq (a :: t) n hn (by simp)]
    rw [List.flatten_cons, divide_join ((a :: t).drop n) n hn]
    exact List.take_append_drop n (a :: t)
termination_by l.length
decreasing_by
  simp only [List.length_drop, List.length_cons]
  omega

theorem divide_chunk_le (l : List α) (n : Nat) (hn : n ≠ 0) :
    ∀ c ∈ divide l n, c.length ≤ n := by
  cases l with
  | nil => simp [divide_nil]
  | cons a t =>
    rw [divide_cons_eq (a :: t) n hn (by simp)]
    intro c hc
    rcases List.mem_cons.mp hc with h | h
    · subst h
      exact List.length_take_le n (a :: t)
    · exact divide_chunk_le ((a :: t).drop n) n hn c h
termination_by l.length
decreasing_by
  simp only [List.length_drop, List.length_cons]
  omega

theorem divide_ne_nil_of_ne_nil (l : List α) (n : Nat) (hn : n ≠ 0)
    (hl : l ≠ []) : divide l n ≠ [] := by
  rw [divide_cons_eq l n hn hl]
  simp

/-- Claim C7: for every list and chunk size n ≥ 1, divide yields sub-lists
each of length at most n whose in-order concatenation is the original list,
and on a 2500-element list with n = 1000 it yields exactly the chunk
lengths 1000, 1000, 500. -/
theorem divide_chunks_spec (l : List α) (n : Nat) (hn : 1 ≤ n) :
    (divide l n).flatten = l ∧
    (∀ c ∈ divide l n, c.length ≤ n) ∧
    (l.length = 2500 → n = 1000 →
      (divide l n).map List.length = [1000, 1000, 500]) := by
  have hn0 : n ≠ 0 := by omega
  refine ⟨divide_join l n hn0, divide_chunk_le l n hn0, ?_⟩
  intro h25 h10
  subst h10
  have h1 : l ≠ [] := by
    intro h
    rw [h] at h25
    simp at h25
  rw [divide_cons_eq l 1000 (by norm_num) h1]
  have hd1 : (l.drop 1000).length = 1500 := by simp [h25]
  have h2 : l.drop 1000 ≠ [] := by
    intro h
    rw [h] at hd1
    simp at hd1
  rw [divide_cons_eq (l.drop 1000) 1000 (by norm_num) h2]
  have hd2 : ((l.drop 1000).drop 1000).length = 500 := by simp [h25]
  have h3 : (l.drop 1000).drop 1000 ≠ [] := by
    intro h
    rw [h] at hd2
    simp at hd2
  rw [divide_cons_eq ((l.drop 1000).drop 1000) 1000 (by norm_num) h3]
  have hd3 : (((l.drop 1000).drop 1000).drop 1000).length = 0 := by
    simp [h25]
  have h4 : ((l.drop 1000).drop 1000).drop 1000 = [] :=
    List.eq_nil_of_length_eq_zero hd3
  rw [h4, divide_nil]
  simp [List.length_take, h25, hd1, hd2]

/-- Witness for divide_chunks_spec at the 2500-element list of the claim. -/
theorem divide_chunks_spec_witness :
    (divide (List.range 2500) 1000).flatten = List.range 2500 ∧
    (∀ c ∈ divide (List.range 2500) 1000, c.length ≤ 1000) ∧
    (divide (List.range 2500) 1000).map List.length = [1000, 1000, 500] := by
  have h := divide_chunks_spec (List.range 2500) 1000 (by norm_num)
  exact ⟨h.1, h.2.1, h.2.2 (by simp) rfl⟩

/-- Claim C5: the quantity-to-count mapping of both create_stocks variants —
">10" maps to 100, "1" maps to 0, any other numeric quantity maps to its
integer value, and a non-numeric quantity makes the whole call raise. Stated
on a single-row inventory so that each case pins down the entire output. -/
theorem quantity_mapping_both_variants (c q p wh date : String)
    (ids : List String) (hc : c ∈ ids) :
    (q = ">10" →
      create_stocks [⟨c, q, p⟩] ids =
        some (⟨c, 100⟩ :: (ids.erase c).map (fun i => ⟨i, 0⟩), ids.erase c) ∧
      market_create_stocks [⟨c, q, p⟩] ids wh date =
        some (⟨c, wh, [⟨100, "FIT", date⟩]⟩ ::
          (ids.erase c).map (fun i => ⟨i, wh, [⟨0, "FIT", date⟩]⟩), ids.erase c)) ∧
    (q = "1" →
      create_stocks [⟨c, q, p⟩] ids =
        some (⟨c, 0⟩ :: (ids.erase c).map (fun i => ⟨i, 0⟩), ids.erase c) ∧
      market_create_stocks [⟨c, q, p⟩] ids wh date =
        some (⟨c, wh, [⟨0, "FIT", date⟩]⟩ ::
          (ids.erase c).map (fun i => ⟨i, wh, [⟨0, "FIT", date⟩]⟩), ids.erase c)) ∧
    (∀ z : Int, q ≠ ">10" → q ≠ "1" → pyStrToInt q = some z →
      create_stocks [⟨c, q, p⟩] ids =
        some (⟨c, z⟩ :: (ids.erase c).map (fun i => ⟨i, 0⟩), ids.erase c) ∧
      market_create_stocks [⟨c, q, p⟩] ids wh date =
        some (⟨c, wh, [⟨z, "FIT", date⟩]⟩ ::
          (ids.erase c).map (fun i => ⟨i, wh, [⟨0, "FIT", date⟩]⟩), ids.erase c)) ∧
    (q ≠ ">10" → q ≠ "1" → pyStrToInt q = none →
      create_stocks [⟨c, q, p⟩] ids = none ∧
      market_create_stocks [⟨c, q, p⟩] ids wh date = none) := by
  refine ⟨?_, ?_, ?_, ?_⟩
  · intro hq
    subst hq
    have hquant : quantityStock ">10" = some 100 := rfl
    constructor
    · simp [create_stocks, stocksLoop, hc, hquant]
    · simp [market_create_stocks, marketStocksLoop, hc, hquant]
  · intro hq
    subst hq
    have hquant : quantityStock "1" = some 0 := rfl
    constructor
    · simp [create_stocks, stocksLoop, hc, hquant]
    · simp [market_create_stocks, marketStocksLoop, hc, hquant]
  · intro z h1 h2 h3
    have hquant : quantityStock q = some z := by
      simp [quantityStock, h1, h2, h3]
    constructor
    · simp [create_stocks, stocksLoop, hc, hquant]
    · simp [market_create_stocks, marketStocksLoop, hc, hquant]
  · intro h1 h2 h3
    have hquant : quantityStock q = none := by
      simp [quantityStock, h1, h2, h3]
    constructor
    · simp [create_stocks, stocksLoop, hc, hquant]
    · simp [market_create_stocks, marketStocksLoop, hc, hquant]

/-- Witness for quantity_mapping_both_variants at code "A", quantity "7",
catalog ["A", "B"]. -/
theorem quantity_mapping_both_variants_witness :
    create_stocks [⟨"A", "7", "1.0"⟩] ["A", "B"] =
      some (⟨"A", 7⟩ :: ((["A", "B"] : List String).erase "A").map (fun i => ⟨i, 0⟩),
        (["A", "B"] : List String).erase "A") ∧
    market_create_stocks [⟨"A", "7", "1.0"⟩] ["A", "B"] "w" "d" =
      some (⟨"A", "w", [⟨7, "FIT", "d"⟩]⟩ ::
        ((["A", "B"] : List String).erase "A").map (fun i => ⟨i, "w", [⟨0, "FIT", "d"⟩]⟩),
        (["A", "B"] : List String).erase "A") :=
  (quantity_mapping_both_variants "A" "7" "1.0" "w" "d" ["A", "B"]
    (by decide)).2.2.1 7 (by decide) (by decide) (by decide)

theorem stocksLoop_length :
    ∀ (ws : List Watch) (ids : List String) (es : List StockEntry) (rem : List String),
      stocksLoop ws ids = some (es, rem) → es.length + rem.length = ids.length := by
  intro ws
  induction ws with
  | nil =>
    intro ids es rem h
    simp only [stocksLoop, Option.some.injEq, Prod.mk.injEq] at h
    obtain ⟨h1, h2⟩ := h
    subst h1
    subst h2
    simp
  | cons w ws ih =>
    intro ids es rem h
    by_cases hc : w.code ∈ ids
    · simp only [stocksLoop, if_pos hc] at h
      cases hq : quantityStock w.quantity with
      | none => rw [hq] at h; exact absurd h (by simp)
      | some v =>
        rw [hq] at h
        cases hr : stocksLoop ws (ids.erase w.code) with
        | none => rw [hr] at h; exact absurd h (by simp)
        | some pr =>
          obtain ⟨es1, rem1⟩ := pr
          rw [hr] at h
          simp only [Option.some.injEq, Prod.mk.injEq] at h
          obtain ⟨h1, h2⟩ := h
          subst h1
          subst h2
          have hlen := ih (ids.erase w.code) es1 rem1 hr
          have he : (ids.erase w.code).length = ids.length - 1 :=
            List.length_erase_of_mem hc
          have hpos : 0 < ids.length := List.length_pos.mpr (List.ne_nil_of_mem hc)
          simp only [List.length_cons]
          omega
    · simp only [stocksLoop, if_neg hc] at h
      exact ih ids es rem h

theorem stocksLoop_no_match :
    ∀ (ws : List Watch) (ids : List String), (∀ w ∈ ws, w.code ∉ ids) →
      stocksLoop ws ids = some ([], ids) := by
  intro ws
  induction ws with
  | nil => intro ids _; rfl
  | cons w ws ih =>
    intro ids hno
    have hc : w.code ∉ ids := hno w (List.mem_cons_self w ws)
    simp only [stocksLoop, if_neg hc]
    exact ih ids (fun u hu => hno u (List.mem_cons_of_mem w hu))

theorem stocksLoop_rem_eq_iff :
    ∀ (ws : List Watch) (ids : List String) (es : List StockEntry) (rem : List String),
      stocksLoop ws ids = some (es, rem) →
      (rem = ids ↔ ∀ w ∈ ws, w.code ∉ ids) := by
  intro ws
  induction ws with
  | nil =>
    intro ids es rem h
    simp only [stocksLoop, Option.some.injEq, Prod.mk.injEq] at h
    simp [h.2]
  | cons w ws ih =>
    intro ids es rem h
    by_cases hc : w.code ∈ ids
    · constructor
      · intro hrm
        exfalso
        simp only [stocksLoop, if_pos hc] at h
        cases hq : quantityStock w.quantity with
        | none => rw [hq] at h; exact absurd h (by simp)
        | some v =>
          rw [hq] at h
          cases hr : stocksLoop ws (ids.erase w.code) with
          | none => rw [hr] at h; exact absurd h (by simp)
          | some pr =>
            obtain ⟨es1, rem1⟩ := pr
            rw [hr] at h
            simp only [Option.some.injEq, Prod.mk.injEq] at h
            obtain ⟨-, h2⟩ := h
            have hlen := stocksLoop_length ws (ids.erase w.code) es1 rem1 hr
            have he : (ids.erase w.code).length = ids.length - 1 :=
              List.length_erase_of_mem hc
            have hpos : 0 < ids.length := List.length_pos.mpr (List.ne_nil_of_mem hc)
            have hrl : rem1.length = ids.length := by rw [h2, hrm]
            omega
      · intro hno
        exact absurd hc (hno w (List.mem_cons_self w ws))
    · simp only [stocksLoop, if_neg hc] at h
      have := ih ids es rem h
      constructor
      · intro hrm
        intro u hu
        rcases List.mem_cons.mp hu with h1 | h1
        · subst h1; exact hc
        · exact (this.mp hrm) u h1
      · intro hno
        exact this.mpr (fun u hu => hno u (List.mem_cons_of_mem w hu))

/-- Claim C1 (amended): create_stocks removes matched offer ids from the
caller's list itself, not from a private copy — after a successful call the
caller's list is unchanged if and only if no inventory row's code was in it. -/
theorem create_stocks_caller_list_unchanged_iff (ws : List Watch)
    (ids : List String) (st : List StockEntry) (rem : List String)
    (h : create_stocks ws ids = some (st, rem)) :
    rem = ids ↔ ∀ w ∈ ws, w.code ∉ ids := by
  unfold create_stocks at h
  cases hr : stocksLoop ws ids with
  | none => rw [hr] at h; exact absurd h (by simp)
  | some pr =>
    obtain ⟨es, rem1⟩ := pr
    rw [hr] at h
    simp only [Option.some.injEq, Prod.mk.injEq] at h
    obtain ⟨-, h2⟩ := h
    subst h2
    exact stocksLoop_rem_eq_iff ws ids es rem1 hr

/-- Claim C1 counterexample: with the single row (code "X", quantity "5") and
catalog ["X"], the caller's list is ["X"] before the call and [] after it —
the matched id was removed from the caller's list, not from a local copy. -/
theorem create_stocks_mutates_caller_cex :
    (create_stocks [⟨"X", "5", ""⟩] ["X"]).map Prod.snd ≠ some ["X"] := by
  decide

/-- Witness for create_stocks_caller_list_unchanged_iff on a no-match run. -/
theorem create_stocks_caller_list_unchanged_iff_witness :
    (["X"] : List String) = ["X"] ↔
      ∀ w ∈ [(⟨"Z", "5", ""⟩ : Watch)], w.code ∉ (["X"] : List String) :=
  create_stocks_caller_list_unchanged_iff [⟨"Z", "5", ""⟩] ["X"]
    [⟨"X", 0⟩] ["X"] (by decide)

theorem filter_zeroMap_of_not_mem (ids : List String) (x : String) (hx : x ∉ ids) :
    (ids.map (fun i => (⟨i, 0⟩ : StockEntry))).filter (fun e => e.offer_id == x) = [] := by
  induction ids with
  | nil => rfl
  | cons a t ih =>
    have hax : ¬ a = x := fun h => hx (h ▸ List.mem_cons_self a t)
    have hxt : x ∉ t := fun h => hx (List.mem_cons_of_mem a h)
    simp only [List.map_cons, List.filter_cons]
    simp [hax, ih hxt]

theorem filter_zeroMap_of_nodup (ids : List String) (x : String)
    (hi : ids.Nodup) (hx : x ∈ ids) :
    (ids.map (fun i => (⟨i, 0⟩ : StockEntry))).filter (fun e => e.offer_id == x) = [⟨x, 0⟩] := by
  induction ids with
  | nil => exact absurd hx (List.not_mem_nil x)
  | cons a t ih =>
    rcases List.mem_cons.mp hx with h1 | h1
    · subst h1
      have hxt : x ∉ t := (List.nodup_cons.mp hi).1
      simp only [List.map_cons, List.filter_cons]
      simp [filter_zeroMap_of_not_mem t x hxt]
    · have hax : ¬ a = x := by
        intro h
        subst h
        exact (List.nodup_cons.mp hi).1 h1
      simp only [List.map_cons, List.filter_cons]
      simp [hax, ih (List.nodup_cons.mp hi).2 h1]

theorem stocksLoop_filter_not_mem :
    ∀ (ws : List Watch) (ids : List String) (es : List StockEntry)
      (rem : List String) (x : String),
      stocksLoop ws ids = some (es, rem) → x ∉ ids → x ∉ ws.map Watch.code →
      (es ++ rem.map (fun i => (⟨i, 0⟩ : StockEntry))).filter
        (fun e => e.offer_id == x) = [] := by
  intro ws
  induction ws with
  | nil =>
    intro ids es rem x h hx _
    simp only [stocksLoop, Option.some.injEq, Prod.mk.injEq] at h
    obtain ⟨h1, h2⟩ := h
    subst h1
    subst h2
    simpa using filter_zeroMap_of_not_mem ids x hx
  | cons w ws ih =>
    intro ids es rem x h hx hxc
    have hwx : ¬ w.code = x := by
      intro h1
      exact hxc (h1 ▸ List.mem_map_of_mem Watch.code (List.mem_cons_self w ws))
    have hxc2 : x ∉ ws.map Watch.code := by
      intro h1
      exact hxc (List.mem_cons_of_mem _ h1)
    by_cases hc : w.code ∈ ids
    · simp only [stocksLoop, if_pos hc] at h
      cases hq : quantityStock w.quantity with
      | none => rw [hq] at h; exact absurd h (by simp)
      | some v =>
        rw [hq] at h
        cases hr : stocksLoop ws (ids.erase w.code) with
        | none => rw [hr] at h; exact absurd h (by simp)
        | some pr =>
          obtain ⟨es1, rem1⟩ := pr
          rw [hr] at h
          simp only [Option.some.injEq, Prod.mk.injEq] at h
          obtain ⟨h1, h2⟩ := h
          subst h1
          subst h2
          have hxe : x ∉ ids.erase w.code := fun h1 => hx (List.mem_of_mem_erase h1)
          have := ih (ids.erase w.code) es1 rem1 x hr hxe hxc2
          simp only [List.cons_append, List.filter_cons]
          simp [hwx, this]
    · simp only [stocksLoop, if_neg hc] at h
      exact ih ids es rem x h hx hxc2

theorem stocksLoop_filter_eq :
    ∀ (ws : List Watch) (ids : List String) (es : List StockEntry)
      (rem : List String) (x : String),
      (ws.map Watch.code).Nodup → ids.Nodup →
      stocksLoop ws ids = some (es, rem) → x ∈ ids →
      (es ++ rem.map (fun i => (⟨i, 0⟩ : StockEntry))).filter
        (fun e => e.offer_id == x) = [⟨x, stockFor ws x⟩] := by
  intro ws
  induction ws with
  | nil =>
    intro ids es rem x _ hi h hx
    simp only [stocksLoop, Option.some.injEq, Prod.mk.injEq] at h
    obtain ⟨h1, h2⟩ := h
    subst h1
    subst h2
    have : stockFor [] x = 0 := rfl
    rw [this]
    simpa using filter_zeroMap_of_nodup ids x hi hx
  | cons w ws ih =>
    intro ids es rem x hw hi h hx
    have hw1 : w.code ∉ ws.map Watch.code := (List.nodup_cons.mp hw).1
    have hw2 : (ws.map Watch.code).Nodup := (List.nodup_cons.mp hw).2
    by_cases hc : w.code ∈ ids
    · simp only [stocksLoop, if_pos hc] at h
      cases hq : quantityStock w.quantity with
      | none => rw [hq] at h; exact absurd h (by simp)
      | some v =>
        rw [hq] at h
        cases hr : stocksLoop ws (ids.erase w.code) with
        | none => rw [hr] at h; exact absurd h (by simp)
        | some pr =>
          obtain ⟨es1, rem1⟩ := pr
          rw [hr] at h
          simp only [Option.some.injEq, Prod.mk.injEq] at h
          obtain ⟨h1, h2⟩ := h
          subst h1
          subst h2
          by_cases hxw : w.code = x
          · subst hxw
            have hne : w.code ∉ ids.erase w.code := by
              intro h1
              exact ((List.Nodup.mem_erase_iff hi).mp h1).1 rfl
            have htail := stocksLoop_filter_not_mem ws (ids.erase w.code)
              es1 rem1 w.code hr hne hw1
            have hfind : List.find? (fun u => u.code == w.code) (w :: ws) = some w :=
              List.find?_cons_of_pos ws (by simp)
            have hsf : stockFor (w :: ws) w.code = v := by
              simp only [stockFor, hfind]
              simp [hq]
            simp only [List.cons_append, List.filter_cons]
            simp [htail, hsf]
          · have hxe : x ∈ ids.erase w.code :=
              (List.Nodup.mem_erase_iff hi).mpr ⟨fun h1 => hxw h1.symm, hx⟩
            have := ih (ids.erase w.code) es1 rem1 x hw2 (hi.erase w.code) hr hxe
            have hfind : List.find? (fun u => u.code == x) (w :: ws) =
                List.find? (fun u => u.code == x) ws :=
              List.find?_cons_of_neg ws (by simp [hxw])
            have hsf : stockFor (w :: ws) x = stockFor ws x := by
              simp only [stockFor, hfind]
            simp only [List.cons_append, List.filter_cons]
            simp [hxw, this, hsf]
    · simp only [stocksLoop, if_neg hc] at h
      have hxw : ¬ w.code = x := by
        intro h1
        exact hc (h1 ▸ hx)
      have hfind : List.find? (fun u => u.code == x) (w :: ws) =
          List.find? (fun u => u.code == x) ws :=
        List.find?_cons_of_neg ws (by simp [hxw])
      have hsf : stockFor (w :: ws) x = stockFor ws x := by
        simp only [stockFor, hfind]
      rw [hsf]
      exact ih ids es rem x hw2 hi h hx

theorem create_prices_length (ws : List Watch) (ids : List String) :
    (create_prices ws ids).length =
      (ws.filter (fun w => decide (w.code ∈ ids))).length := by
  induction ws with
  | nil => rfl
  | cons w ws ih =>
    by_cases hc : w.code ∈ ids
    · simp only [create_prices, if_pos hc, List.filter_cons]
      simp [hc, ih]
    · simp only [create_prices, if_neg hc, List.filter_cons]
      simp [hc, ih]

theorem create_prices_offer_mem (ws : List Watch) (ids : List String) :
    ∀ e ∈ create_prices ws ids, e.offer_id ∈ ids := by
  induction ws with
  | nil => intro e he; exact absurd he (List.not_mem_nil e)
  | cons w ws ih =>
    intro e he
    by_cases hc : w.code ∈ ids
    · simp only [create_prices, if_pos hc] at he
      rcases List.mem_cons.mp he with h1 | h1
      · subst h1; exact hc
      · exact ih e h1
    · simp only [create_prices, if_neg hc] at he
      exact ih e he

/-- Claim C3 (amended): with pairwise-distinct record codes and
pairwise-distinct catalog ids, every catalog offer id appears exactly once
in the create_stocks output — with the first matching record's mapped count,
or 0 when no record matches — so the stock list has the catalog's length;
and create_prices emits exactly one entry per record whose code is in the
catalog and nothing for unmatched offers. -/
theorem stock_list_exactly_once (ws : List Watch) (ids : List String)
    (st : List StockEntry) (rem : List String)
    (hw : (ws.map Watch.code).Nodup) (hi : ids.Nodup)
    (h : create_stocks ws ids = some (st, rem)) :
    st.length = ids.length ∧
    (∀ x ∈ ids, st.filter (fun e => e.offer_id == x) = [⟨x, stockFor ws x⟩]) ∧
    (create_prices ws ids).length =
      (ws.filter (fun w => decide (w.code ∈ ids))).length ∧
    (∀ e ∈ create_prices ws ids, e.offer_id ∈ ids) := by
  unfold create_stocks at h
  cases hr : stocksLoop ws ids with
  | none => rw [hr] at h; exact absurd h (by simp)
  | some pr =>
    obtain ⟨es, rem1⟩ := pr
    rw [hr] at h
    simp only [Option.some.injEq, Prod.mk.injEq] at h
    obtain ⟨h1, h2⟩ := h
    subst h2
    refine ⟨?_, ?_, create_prices_length ws ids, create_prices_offer_mem ws ids⟩
    · have hlen := stocksLoop_length ws ids es rem1 hr
      rw [← h1]
      simp only [List.length_append, List.length_map]
      omega
    · intro x hx
      rw [← h1]
      exact stocksLoop_filter_eq ws ids es rem1 x hw hi hr hx

/-- Claim C3 counterexample: with no inventory rows (whose codes are
vacuously pairwise-distinct) and the catalog ["X", "X"], the offer id "X"
appears twice in the stock list, not exactly once. -/
theorem stock_list_exactly_once_cex :
    (create_stocks ([] : List Watch) ["X", "X"]).map Prod.fst =
      some [⟨"X", 0⟩, ⟨"X", 0⟩] ∧
    (([⟨"X", 0⟩, ⟨"X", 0⟩] : List StockEntry).filter
      (fun e => e.offer_id == "X")).length ≠ 1 := by
  decide

/-- Witness for stock_list_exactly_once at one matched and one unmatched
offer. -/
theorem stock_list_exactly_once_witness :
    ([⟨"A", 7⟩, ⟨"B", 0⟩] : List StockEntry).length = (["A", "B"] : List String).length ∧
    (∀ x ∈ (["A", "B"] : List String),
      ([⟨"A", 7⟩, ⟨"B", 0⟩] : List StockEntry).filter (fun e => e.offer_id == x) =
        [⟨x, stockFor [⟨"A", "7", ""⟩] x⟩]) ∧
    (create_prices [⟨"A", "7", ""⟩] ["A", "B"]).length =
      (([⟨"A", "7", ""⟩] : List Watch).filter
        (fun w => decide (w.code ∈ (["A", "B"] : List String)))).length ∧
    (∀ e ∈ create_prices [⟨"A", "7", ""⟩] ["A", "B"],
      e.offer_id ∈ (["A", "B"] : List String)) :=
  stock_list_exactly_once [⟨"A", "7", ""⟩] ["A", "B"] [⟨"A", 7⟩, ⟨"B", 0⟩] ["B"]
    (by decide) (by decide) (by decide)

/-- Claim C2 counterexample: for the record (code "X", quantity ">10", price
"1'000.00 руб.") and catalog ["X", "Y"], the price list produced by
seller.main's reconcile step is empty, not [entry for "X" with price "1000"]:
create_stocks removed "X" from the shared offer id list before create_prices
ran. -/
theorem seller_reconcile_endtoend_cex :
    (reconcile [⟨"X", ">10", "1\x27000.00 руб."⟩] ["X", "Y"]).map (fun r => r.1.2) ≠
      some [⟨"UNKNOWN", "RUB", "X", "0", "1000"⟩] := by
  decide

/-- Claim C2 (amended): on that input the stock list is exactly
[(offer "X", stock 100), (offer "Y", stock 0)] as claimed, but the price
list is empty, and the shared offer id list ends as ["Y"]. -/
theorem seller_reconcile_endtoend_actual :
    reconcile [⟨"X", ">10", "1\x27000.00 руб."⟩] ["X", "Y"] =
      some (([⟨"X", 100⟩, ⟨"Y", 0⟩], []), ["Y"]) := by
  decide

/-- Claim C9 counterexample: running the reconcile step a second time on the
very same (now mutated) catalog list object left behind by the first run
produces a different output — here the first run yields one stock entry and
the second yields none. -/
theorem reconcile_idempotent_cex :
    ((reconcile [⟨"X", "5", "1.00"⟩] ["X"]).bind
        (fun r => reconcile [⟨"X", "5", "1.00"⟩] r.2)).map Prod.fst ≠
      (reconcile [⟨"X", "5", "1.00"⟩] ["X"]).map Prod.fst := by
  decide

/-- Claim C9 (amended): the reconcile step is a pure function of its input
values, so a second run receiving an equal fresh catalog list produces
identical (order-preserving) output; a rerun on the very list object the
first run mutated agrees with the first run only when no record matched. -/
theorem reconcile_idempotent_values (ws : List Watch) (ids2 ids1 : List String)
    (hEq : ids2 = ids1) :
    reconcile ws ids2 = reconcile ws ids1 ∧
    (∀ out rem, reconcile ws ids1 = some (out, rem) →
      (∀ w ∈ ws, w.code ∉ ids1) → reconcile ws rem = some (out, rem)) := by
  subst hEq
  refine ⟨rfl, ?_⟩
  intro out rem h hno
  have hloop := stocksLoop_no_match ws ids2 hno
  have hcs : create_stocks ws ids2 =
      some (ids2.map (fun i => ⟨i, 0⟩), ids2) := by
    unfold create_stocks
    rw [hloop]
    simp
  have hrec : reconcile ws ids2 =
      some ((ids2.map (fun i => ⟨i, 0⟩), create_prices ws ids2), ids2) := by
    unfold reconcile
    rw [hcs]
  rw [hrec] at h
  simp only [Option.some.injEq, Prod.mk.injEq] at h
  obtain ⟨h1, h3⟩ := h
  subst h1
  subst h3
  exact hrec

/-- Witness for reconcile_idempotent_values on a no-match run. -/
theorem reconcile_idempotent_values_witness :
    reconcile [⟨"Z", "5", "1"⟩] ["X"] = reconcile [⟨"Z", "5", "1"⟩] ["X"] ∧
    (∀ out rem, reconcile [⟨"Z", "5", "1"⟩] ["X"] = some (out, rem) →
      (∀ w ∈ [(⟨"Z", "5", "1"⟩ : Watch)], w.code ∉ (["X"] : List String)) →
      reconcile [⟨"Z", "5", "1"⟩] rem = some (out, rem)) :=
  reconcile_idempotent_values [⟨"Z", "5", "1"⟩] ["X"] ["X"] rfl

theorem price_conversion_eq_empty (p : String)
    (hp : ∀ c ∈ p.toList.takeWhile (fun c => c ≠ '.'), ¬ c.isDigit) :
    price_conversion p = "" := by
  unfold price_conversion
  rw [headD_pySplitDot]
  have h : (p.toList.takeWhile (fun c => c ≠ '.')).filter Char.isDigit = [] := by
    rw [List.filter_eq_nil_iff]
    intro c hc
    simpa using hp c hc
  rw [h]

theorem market_create_prices_raises (ws : List Watch) (ids : List String)
    (w : Watch) (hw : w ∈ ws) (hm : w.code ∈ ids)
    (hpc : pyStrToInt (price_conversion w.price) = none) :
    market_create_prices ws ids = none := by
  induction ws with
  | nil => exact absurd hw (List.not_mem_nil w)
  | cons a ws ih =>
    rcases List.mem_cons.mp hw with h1 | h1
    · subst h1
      simp only [market_create_prices, if_pos hm]
      rw [hpc]
    · by_cases hc : a.code ∈ ids
      · simp only [market_create_prices, if_pos hc]
        cases hpa : pyStrToInt (price_conversion a.price) with
        | none => rfl
        | some v =>
          rw [ih h1]
          rfl
      · simp only [market_create_prices, if_neg hc]
        exact ih h1

theorem create_prices_mem_entry (ws : List Watch) (ids : List String)
    (w : Watch) (hw : w ∈ ws) (hm : w.code ∈ ids) :
    (⟨"UNKNOWN", "RUB", w.code, "0", price_conversion w.price⟩ : PriceEntry) ∈
      create_prices ws ids := by
  induction ws with
  | nil => exact absurd hw (List.not_mem_nil w)
  | cons a ws ih =>
    rcases List.mem_cons.mp hw with h1 | h1
    · subst h1
      simp only [create_prices, if_pos hm]
      exact List.mem_cons_self _ _
    · by_cases hc : a.code ∈ ids
      · simp only [create_prices, if_pos hc]
        exact List.mem_cons_of_mem _ (ih h1)
      · simp only [create_prices, if_neg hc]
        exact ih h1

/-- Claim C10: a matched record whose price string has no digit before its
first "." makes the Yandex create_prices raise (the empty normalized price
is cast with int), while the Ozon create_prices succeeds and emits that
entry with the empty string as its price. -/
theorem empty_price_digits_divergence (ws : List Watch) (ids : List String)
    (w : Watch) (hw : w ∈ ws) (hm : w.code ∈ ids)
    (hp : ∀ c ∈ w.price.toList.takeWhile (fun c => c ≠ '.'), ¬ c.isDigit) :
    market_create_prices ws ids = none ∧
    ∃ e ∈ create_prices ws ids, e.offer_id = w.code ∧ e.price = "" := by
  have hpc0 : price_conversion w.price = "" := price_conversion_eq_empty w.price hp
  have hpc : pyStrToInt (price_conversion w.price) = none := by
    rw [hpc0]
    rfl
  refine ⟨market_create_prices_raises ws ids w hw hm hpc, ?_⟩
  exact ⟨⟨"UNKNOWN", "RUB", w.code, "0", price_conversion w.price⟩,
    create_prices_mem_entry ws ids w hw hm, rfl, hpc0⟩

/-- Witness for empty_price_digits_divergence at price "abc". -/
theorem empty_price_digits_divergence_witness :
    market_create_prices [⟨"X", "5", "abc"⟩] ["X"] = none ∧
    ∃ e ∈ create_prices [⟨"X", "5", "abc"⟩] ["X"],
      e.offer_id = (⟨"X", "5", "abc"⟩ : Watch).code ∧ e.price = "" :=
  empty_price_digits_divergence [⟨"X", "5", "abc"⟩] ["X"] ⟨"X", "5", "abc"⟩
    (by decide) (by decide) (by decide)

/-- Claim C4 counterexample: in market.main the inventory download runs
before the try block, so a download failure propagates out of main
uncaught instead of being printed with exit status 0. -/
theorem market_main_download_uncaught_cex :
    market_main ⟨.error (.other "boom"), .ok [], .ok [],
      fun _ => .ok (), fun _ => .ok (), "w1", "w2", "d1", "d2"⟩ =
      .uncaught (.other "boom") := rfl

/-- Claim C4 (amended): in seller.main every pipeline exception — inventory
download included — is caught by the top handler, printed and not re-raised
(exit 0); in market.main the same holds for every step except the inventory
download, which runs before the try block and escapes uncaught on failure. -/
theorem toplevel_error_handling (envS : SellerEnv) (envM : MarketEnv) :
    (∃ printed, seller_main envS = .exitZero printed) ∧
    (∀ e, sellerTryBody envS = .error e →
      seller_main envS = .exitZero [excMessage e]) ∧
    (∀ e, envM.downloadR = .error e → market_main envM = .uncaught e) ∧
    (∀ ws e, envM.downloadR = .ok ws → marketTryBody envM ws = .error e →
      market_main envM = .exitZero [excMessage e]) ∧
    (∀ ws, envM.downloadR = .ok ws →
      ∃ printed, market_main envM = .exitZero printed) := by
  refine ⟨?_, ?_, ?_, ?_, ?_⟩
  · cases h : sellerTryBody envS with
    | ok u =>
      exact ⟨[], by unfold seller_main; rw [h]⟩
    | error e =>
      exact ⟨[excMessage e], by unfold seller_main; rw [h]⟩
  · intro e he
    unfold seller_main
    rw [he]
  · intro e he
    unfold market_main
    rw [he]
  · intro ws e h1 h2
    simp only [market_main, h1, h2]
  · intro ws h1
    cases h2 : marketTryBody envM ws with
    | ok u =>
      exact ⟨[], by simp only [market_main, h1, h2]⟩
    | error e =>
      exact ⟨[excMessage e], by simp only [market_main, h1, h2]⟩

/-- Witness for toplevel_error_handling: a failing download is uncaught in
market.main, while seller.main always reaches normal exit. -/
theorem toplevel_error_handling_witness :
    market_main ⟨.error (.other "x"), .ok [], .ok [],
      fun _ => .ok (), fun _ => .ok (), "w", "w", "d", "d"⟩ =
      .uncaught (.other "x") ∧
    ∃ printed, seller_main ⟨.ok ["A"], .ok [],
      fun _ => .ok (), fun _ => .ok ()⟩ = .exitZero printed := by
  have h := toplevel_error_handling
    ⟨.ok ["A"], .ok [], fun _ => .ok (), fun _ => .ok ()⟩
    ⟨.error (.other "x"), .ok [], .ok [],
      fun _ => .ok (), fun _ => .ok (), "w", "w", "d", "d"⟩
  exact ⟨h.2.2.1 (.other "x") rfl, h.1⟩

theorem ySeg_zero (pages : Nat → YandexPage) (k : Nat) : ySeg pages k 0 = [] := rfl

theorem ySeg_succ (pages : Nat → YandexPage) (k m : Nat) :
    ySeg pages k (m + 1) = (pages k).offerMappingEntries ++ ySeg pages (k + 1) m := rfl

theorem oSeg_zero (pages : Nat → OzonPage) (k : Nat) : oSeg pages k 0 = [] := rfl

theorem oSeg_succ (pages : Nat → OzonPage) (k m : Nat) :
    oSeg pages k (m + 1) = (pages k).items ++ oSeg pages (k + 1) m := rfl

theorem yandexLoop_terminates (pages : Nat → YandexPage) :
    ∀ (m fuel k : Nat) (acc : List YandexEntry),
      (∀ j, j < m → (pages (k + j)).nextPageToken ≠ "") →
      (pages (k + m)).nextPageToken = "" → m < fuel →
      yandexLoop pages fuel k acc = some (acc ++ ySeg pages k (m + 1)) := by
  intro m
  induction m with
  | zero =>
    intro fuel k acc _ hsig hf
    cases fuel with
    | zero => omega
    | succ f =>
      rw [Nat.add_zero] at hsig
      simp only [yandexLoop, if_pos hsig]
      rw [ySeg_succ, ySeg_zero, List.append_nil]
  | succ m ih =>
    intro fuel k acc hno hsig hf
    cases fuel with
    | zero => omega
    | succ f =>
      have h0 : (pages k).nextPageToken ≠ "" := by
        have := hno 0 (Nat.succ_pos m)
        rwa [Nat.add_zero] at this
      simp only [yandexLoop, if_neg h0]
      have hno1 : ∀ j, j < m → (pages (k + 1 + j)).nextPageToken ≠ "" := by
        intro j hj
        have := hno (j + 1) (by omega)
        rwa [show k + (j + 1) = k + 1 + j from by omega] at this
      have hsig1 : (pages (k + 1 + m)).nextPageToken = "" := by
        rwa [show k + (m + 1) = k + 1 + m from by omega] at hsig
      rw [ih f (k + 1) (acc ++ (pages k).offerMappingEntries) hno1 hsig1 (by omega)]
      rw [ySeg_succ pages k (m + 1), ← List.append_assoc]

theorem yandexLoop_no_signal (pages : Nat → YandexPage) :
    ∀ (fuel k : Nat) (acc : List YandexEntry),
      (∀ j, j < fuel → (pages (k + j)).nextPageToken ≠ "") →
      yandexLoop pages fuel k acc = none := by
  intro fuel
  induction fuel with
  | zero => intro k acc _; rfl
  | succ f ih =>
    intro k acc h
    have h0 : (pages k).nextPageToken ≠ "" := by
      have := h 0 (Nat.succ_pos f)
      rwa [Nat.add_zero] at this
    simp only [yandexLoop, if_neg h0]
    refine ih (k + 1) _ (fun j hj => ?_)
    have := h (j + 1) (by omega)
    rwa [show k + (j + 1) = k + 1 + j from by omega] at this

theorem ozonLoop_terminates (pages : Nat → OzonPage) :
    ∀ (m fuel k : Nat) (acc : List OzonItem),
      (∀ j, j < m → (pages (k + j)).total ≠ (acc ++ oSeg pages k (j + 1)).length) →
      (pages (k + m)).total = (acc ++ oSeg pages k (m + 1)).length →
      m < fuel →
      ozonLoop pages fuel k acc = some (acc ++ oSeg pages k (m + 1)) := by
  intro m
  induction m with
  | zero =>
    intro fuel k acc _ hsig hf
    cases fuel with
    | zero => omega
    | succ f =>
      rw [Nat.add_zero, oSeg_succ, oSeg_zero, List.append_nil] at hsig
      simp only [ozonLoop, if_pos hsig]
      rw [oSeg_succ, oSeg_zero, List.append_nil]
  | succ m ih =>
    intro fuel k acc hno hsig hf
    cases fuel with
    | zero => omega
    | succ f =>
      have h0 : (pages k).total ≠ (acc ++ (pages k).items).length := by
        have := hno 0 (Nat.succ_pos m)
        rwa [Nat.add_zero, oSeg_succ, oSeg_zero, List.append_nil] at this
      simp only [ozonLoop, if_neg h0]
      have hno1 : ∀ j, j < m →
          (pages (k + 1 + j)).total ≠
            ((acc ++ (pages k).items) ++ oSeg pages (k + 1) (j + 1)).length := by
        intro j hj
        have := hno (j + 1) (by omega)
        rwa [show k + (j + 1) = k + 1 + j from by omega,
          oSeg_succ pages k (j + 1), ← List.append_assoc] at this
      have hsig1 : (pages (k + 1 + m)).total =
          ((acc ++ (pages k).items) ++ oSeg pages (k + 1) (m + 1)).length := by
        rwa [show k + (m + 1) = k + 1 + m from by omega,
          oSeg_succ pages k (m + 1), ← List.append_assoc] at hsig
      rw [ih f (k + 1) (acc ++ (pages k).items) hno1 hsig1 (by omega)]
      rw [oSeg_succ pages k (m + 1), ← List.append_assoc]

theorem ozonLoop_no_signal (pages : Nat → OzonPage) :
    ∀ (fuel k : Nat) (acc : List OzonItem),
      (∀ j, j < fuel →
        (pages (k + j)).total ≠ (acc ++ oSeg pages k (j + 1)).length) →
      ozonLoop pages fuel k acc = none := by
  intro fuel
  induction fuel with
  | zero => intro k acc _; rfl
  | succ f ih =>
    intro k acc h
    have h0 : (pages k).total ≠ (acc ++ (pages k).items).length := by
      have := h 0 (Nat.succ_pos f)
      rwa [Nat.add_zero, oSeg_succ, oSeg_zero, List.append_nil] at this
    simp only [ozonLoop, if_neg h0]
    refine ih (k + 1) _ (fun j hj => ?_)
    have := h (j + 1) (by omega)
    rwa [show k + (j + 1) = k + 1 + j from by omega,
      oSeg_succ pages k (j + 1), ← List.append_assoc] at this

/-- Claim C8: each marketplace's get_offer_ids accumulates page items and
terminates exactly at its marketplace's termination signal — for Yandex the
first page carrying no next-page token, for Ozon the first page whose
reported total equals the accumulated item count — and returns exactly the
offer identifiers extracted from all accumulated items, in order; with no
signal within the available calls the loop does not terminate. -/
theorem get_offer_ids_pagination (pagesY : Nat → YandexPage)
    (pagesO : Nat → OzonPage) (mY mO fuelY fuelO : Nat)
    (hY1 : ∀ j, j < mY → (pagesY j).nextPageToken ≠ "")
    (hY2 : (pagesY mY).nextPageToken = "")
    (hYf : mY < fuelY)
    (hO1 : ∀ j, j < mO → (pagesO j).total ≠ (oSeg pagesO 0 (j + 1)).length)
    (hO2 : (pagesO mO).total = (oSeg pagesO 0 (mO + 1)).length)
    (hOf : mO < fuelO) :
    yandex_get_offer_ids pagesY fuelY =
      some ((ySeg pagesY 0 (mY + 1)).map (fun e => e.offer.shopSku)) ∧
    ozon_get_offer_ids pagesO fuelO =
      some ((oSeg pagesO 0 (mO + 1)).map OzonItem.offer_id) ∧
    (∀ (p : Nat → YandexPage) (f : Nat),
      (∀ j, j < f → (p j).nextPageToken ≠ "") →
      yandex_get_offer_ids p f = none) ∧
    (∀ (p : Nat → OzonPage) (f : Nat),
      (∀ j, j < f → (p j).total ≠ (oSeg p 0 (j + 1)).length) →
      ozon_get_offer_ids p f = none) := by
  refine ⟨?_, ?_, ?_, ?_⟩
  · unfold yandex_get_offer_ids
    rw [yandexLoop_terminates pagesY mY fuelY 0 []
      (fun j hj => by simpa using hY1 j hj) (by simpa using hY2) hYf]
    simp
  · unfold ozon_get_offer_ids
    rw [ozonLoop_terminates pagesO mO fuelO 0 []
      (fun j hj => by simpa using hO1 j hj) (by simpa using hO2) hOf]
    simp
  · intro p f h
    unfold yandex_get_offer_ids
    rw [yandexLoop_no_signal p f 0 [] (fun j hj => by simpa using h j hj)]
    rfl
  · intro p f h
    unfold ozon_get_offer_ids
    rw [ozonLoop_no_signal p f 0 [] (fun j hj => by simpa using h j hj)]
    rfl

/-- Witness for get_offer_ids_pagination on concrete two-page responses for
both marketplaces. -/
theorem get_offer_ids_pagination_witness :
    yandex_get_offer_ids
        (fun k => if k = 0 then ⟨[⟨⟨"a"⟩⟩, ⟨⟨"b"⟩⟩], "t"⟩ else ⟨[⟨⟨"c"⟩⟩], ""⟩) 3 =
      some ((ySeg
        (fun k => if k = 0 then ⟨[⟨⟨"a"⟩⟩, ⟨⟨"b"⟩⟩], "t"⟩ else ⟨[⟨⟨"c"⟩⟩], ""⟩)
        0 2).map (fun e => e.offer.shopSku)) ∧
    ozon_get_offer_ids
        (fun k => if k = 0 then ⟨[⟨"a"⟩, ⟨"b"⟩], 3, "x"⟩ else ⟨[⟨"c"⟩], 3, "y"⟩) 3 =
      some ((oSeg
        (fun k => if k = 0 then ⟨[⟨"a"⟩, ⟨"b"⟩], 3, "x"⟩ else ⟨[⟨"c"⟩], 3, "y"⟩)
        0 2).map OzonItem.offer_id) ∧
    (∀ (p : Nat → YandexPage) (f : Nat),
      (∀ j, j < f → (p j).nextPageToken ≠ "") →
      yandex_get_offer_ids p f = none) ∧
    (∀ (p : Nat → OzonPage) (f : Nat),
      (∀ j, j < f → (p j).total ≠ (oSeg p 0 (j + 1)).length) →
      ozon_get_offer_ids p f = none) :=
  get_offer_ids_pagination
    (fun k => if k = 0 then ⟨[⟨⟨"a"⟩⟩, ⟨⟨"b"⟩⟩], "t"⟩ else ⟨[⟨⟨"c"⟩⟩], ""⟩)
    (fun k => if k = 0 then ⟨[⟨"a"⟩, ⟨"b"⟩], 3, "x"⟩ else ⟨[⟨"c"⟩], 3, "y"⟩)
    1 1 3 3 (by decide) (by decide) (by decide) (by decide) (by decide) (by decide)

end SellerApis
